import Mathlib

/-!
Verification of the confusion-matrix / IoU accumulator in `src/util/iou.py`
(`eoeair/Segmodel`).

The Python module defines two classes that are both named `IoU`; the second
definition shadows the first, so the *effective* class reachable from the
module is the second one.  Both are embedded here:

* the effective (second) class: `IoU.init`, `IoU.reset`, `IoU.add`,
  `IoU.value`, with the static helpers `fast_hist`, `per_class_iu`,
  `per_class_PA`;
* the derivation half of the first (shadowed) variant's `value()`
  (lines 80-92), which takes an already accumulated confusion matrix:
  `iou_first`, `value_first`, `zeroRC`.

Tensors are modelled as a shape together with a flat (row-major) data list of
integers; `torch.max(dim=1)` becomes a first-occurrence arg-max along axis 1.
`numpy.bincount` / `reshape` are modelled exactly, with `Option` capturing the
exceptions numpy raises (negative bin values, reshape size mismatch).  Since
the accumulated counts are non-negative integers and every division is
explicit, matrices hold `ℕ` and derived statistics are `Option ℚ`, where
`none` stands for IEEE NaN (the only NaN source in the code is `0/0` under
`np.errstate` and `np.nanmean` of an empty/all-NaN vector).
-/

/-- An `n × n` count matrix, row major (numpy 2-D array of counts). -/
abbrev Mat := List (List ℕ)

/-- `np.zeros((n, n))`. -/
def zeroM (n : ℕ) : Mat := List.replicate n (List.replicate n 0)

/-- Elementwise matrix addition (numpy `+=` on same-shape arrays). -/
def matAdd (A B : Mat) : Mat := List.zipWith (List.zipWith (· + ·)) A B

/-- `np.bincount(xs, minlength)`: a vector of length
`max minlength (max xs + 1)` whose `i`-th entry counts occurrences of `i`. -/
def bincount (xs : List ℕ) (minlength : ℕ) : List ℕ :=
  (List.range (max minlength (xs.foldr (fun x m => max (x + 1) m) 0))).map
    (fun i => xs.count i)

/-- `v.reshape(n, n)`: fails (numpy `ValueError`) unless `v` has exactly
`n * n` entries; otherwise rows are the consecutive length-`n` chunks. -/
def reshape (v : List ℕ) (n : ℕ) : Option Mat :=
  if v.length = n * n then
    some ((List.range n).map (fun i => (List.range n).map (fun j => v.getD (n * i + j) 0)))
  else none

/-- Sum of row `i` (`hist.sum(1)[i]`). -/
def rowSum (M : Mat) (i : ℕ) : ℕ := (M.getD i []).sum

/-- Sum of column `i` (`hist.sum(0)[i]`). -/
def colSum (M : Mat) (i : ℕ) : ℕ := (M.map (fun r => r.getD i 0)).sum

/-- Diagonal entry `i` (`np.diag(hist)[i]`). -/
def diagE (M : Mat) (i : ℕ) : ℕ := (M.getD i []).getD i 0

namespace IoU

/-- `IoU.fast_hist(a, b, n)` of the effective (second) class:
keep the positions whose *label* (`a`) value lies in `[0, n)`, form the bin
values `n * a + b` over the kept positions, and reshape
`np.bincount(bins, minlength = n ** 2)` to `n × n`.  `none` models the numpy
exceptions: a negative bin value (negative `b`), or a bin value `≥ n²`
(out-of-range `b`), which makes the bincount vector longer than `n²` so that
the reshape fails.  The predicted values `b` are never range-checked. -/
def fast_hist (a b : List ℤ) (n : ℕ) : Option Mat :=
  let kept := (a.zip b).filter (fun q => decide (0 ≤ q.1 ∧ q.1 < (n : ℤ)))
  let bins := kept.map (fun q => (n : ℤ) * q.1 + q.2)
  if bins.all (fun x => decide (0 ≤ x)) then
    reshape (bincount (bins.map Int.toNat) (n * n)) n
  else none

end IoU

section TensorModel

/-- A tensor: its shape and its flat, row-major contents. -/
structure Tens where
  shape : List ℕ
  data : List ℤ
deriving DecidableEq, Repr

/-- `t.dim()`. -/
def Tens.dim (t : Tens) : ℕ := t.shape.length

/-- Index of the first maximal element of a list (PyTorch `max(dim)` index
for a single reduced row). -/
def argmaxIdx : List ℤ → ℕ
  | [] => 0
  | x :: xs => if xs.all (fun y => decide (y ≤ x)) then 0 else argmaxIdx xs + 1

/-- Element `(i, c, j, k)` of a rank-4 tensor, via row-major flat indexing. -/
def Tens.at4 (t : Tens) (i c j k : ℕ) : ℤ :=
  t.data.getD
    (((i * t.shape.getD 1 0 + c) * t.shape.getD 2 0 + j) * t.shape.getD 3 0 + k) 0

/-- `_, t = t.max(1)` on a rank-4 tensor `(N, K, H, W)`: the rank-3 tensor of
arg-max indices along the class axis. -/
def argmax1 (t : Tens) : Tens :=
  { shape := [t.shape.getD 0 0, t.shape.getD 2 0, t.shape.getD 3 0]
    data :=
      (List.range (t.shape.getD 0 0)).flatMap (fun i =>
        (List.range (t.shape.getD 2 0)).flatMap (fun j =>
          (List.range (t.shape.getD 3 0)).map (fun k =>
            (argmaxIdx ((List.range (t.shape.getD 1 0)).map (fun c => t.at4 i c j k)) : ℤ)))) }

/-- The rank-reduction step of `add`: arg-max decode a rank-4 tensor, leave
anything else untouched. -/
def reduceT (t : Tens) : Tens := if t.dim = 4 then argmax1 t else t

/-- Concatenation of two rank-3 dense label tensors along the batch axis
(`torch.cat(dim=0)` for matching `H`, `W`): batch counts add, the flat
row-major contents concatenate. -/
def concat3 (t u : Tens) : Tens :=
  ⟨[t.shape.getD 0 0 + u.shape.getD 0 0, t.shape.getD 1 0, t.shape.getD 2 0],
    t.data ++ u.data⟩

end TensorModel

namespace IoU

/-- State of the effective (second) `IoU` class: `num_classes` and `hist`. -/
structure State where
  num_classes : ℕ
  hist : Mat
deriving DecidableEq, Repr

/-- `IoU.__init__(num_classes)` of the effective class: zero matrix, and no
`ignore_index` parameter exists. -/
def init (num_classes : ℕ) : State := ⟨num_classes, zeroM num_classes⟩

/-- `IoU.reset()`. -/
def reset (s : State) : State := ⟨s.num_classes, zeroM s.num_classes⟩

/-- The flat part of `IoU.add` after rank reduction: if the flattened lengths
differ, print a diagnostic and return with `hist` untouched; otherwise
`hist += fast_hist(label, pred, num_classes)`.  `none` models an escaping
numpy exception from `fast_hist`. -/
def addHist (n : ℕ) (hist : Mat) (pred label : List ℤ) : Option Mat :=
  if label.length ≠ pred.length then some hist
  else (fast_hist label pred n).map (fun h => matAdd hist h)

/-- `IoU.add(pred, label)` of the effective class: arg-max decode any rank-4
input, flatten, then `addHist`.  No shape assertion of any kind is
performed. -/
def add (s : State) (pred label : Tens) : Option State :=
  (addHist s.num_classes s.hist (reduceT pred).data (reduceT label).data).map
    (fun h => ⟨s.num_classes, h⟩)

/-- `IoU.per_class_iu(hist)` of the effective class:
`np.diag(hist)[1:] / np.maximum((hist.sum(1) + hist.sum(0) - np.diag(hist))[1:], 1)`.
Class 0 is dropped by the `[1:]` slice and the denominator is floored at 1,
so no entry is ever NaN. -/
def per_class_iu (M : Mat) : List ℚ :=
  ((List.range M.length).drop 1).map
    (fun i => (diagE M i : ℚ) / ((max (rowSum M i + colSum M i - diagE M i) 1 : ℕ) : ℚ))

/-- `IoU.per_class_PA(hist)`: `np.diag(hist) / np.maximum(hist.sum(1), 1)`. -/
def per_class_PA (M : Mat) : List ℚ :=
  (List.range M.length).map (fun i => (diagE M i : ℚ) / ((max (rowSum M i) 1 : ℕ) : ℚ))

/-- `np.nanmean` over a vector with no NaN entries: NaN (`none`) when the
vector is empty, the arithmetic mean otherwise. -/
def meanQ (xs : List ℚ) : Option ℚ :=
  if xs.length = 0 then none else some (xs.sum / xs.length)

/-- `IoU.value()` of the effective class: computes `per_class_iu` and its
NaN-mean and returns exactly the pair `(mIoUs, miou)`.  The per-class
accuracy `per_class_PA` is also computed but only printed, never returned. -/
def value (M : Mat) : List ℚ × Option ℚ := (per_class_iu M, meanQ (per_class_iu M))

end IoU

section FirstVariant

/-- `conf_matrix[:, ignore] = 0; conf_matrix[ignore, :] = 0`: zero every row
and column whose index is in `ign`. -/
def zeroRC (ign : List ℕ) (M : Mat) : Mat :=
  (List.range M.length).map (fun i =>
    (List.range ((M.getD i []).length)).map (fun j =>
      if i ∈ ign ∨ j ∈ ign then 0 else (M.getD i []).getD j 0))

/-- The IoU vector of the first (shadowed) variant's `value()` (lines 84-92):
`true_positive = np.diag(M)`, `false_positive = M.sum(0) - tp`,
`false_negative = M.sum(1) - tp`, `iou = tp / (tp + fp + fn)` with the
division-by-zero result hidden by `np.errstate`, i.e. `0/0 = NaN` (`none`). -/
def iou_first (M : Mat) : List (Option ℚ) :=
  (List.range M.length).map (fun c =>
    let tp := diagE M c
    let fp := colSum M c - tp
    let fn := rowSum M c - tp
    if tp + fp + fn = 0 then none else some ((tp : ℚ) / ((tp + fp + fn : ℕ) : ℚ)))

/-- `np.nanmean` over a vector that may hold NaN entries: the mean of the
non-NaN entries, NaN (`none`) when there are none. -/
def nanmean (xs : List (Option ℚ)) : Option ℚ :=
  let vs := xs.filterMap id
  if vs.length = 0 then none else some (vs.sum / vs.length)

/-- The first (shadowed) variant's `value()`: optionally zero the ignored
rows/columns, then return `(iou, np.nanmean(iou))`. -/
def value_first (ign : Option (List ℕ)) (M : Mat) : List (Option ℚ) × Option ℚ :=
  let M' := match ign with
    | none => M
    | some l => zeroRC l M
  (iou_first M', nanmean (iou_first M'))

end FirstVariant

/-- Modelled from the spec's wording of the confusion-matrix update: entry
`(t, p)` counts the flattened positions whose true label is `t` and whose
predicted label is `p`.  Used to compare `fast_hist` against the spec. -/
def specCountMatrix (a b : List ℤ) (n : ℕ) : Mat :=
  (List.range n).map (fun (i : ℕ) => (List.range n).map (fun (j : ℕ) =>
    (a.zip b).count ((i : ℤ), (j : ℤ))))

section Helpers

theorem getD_range_map {α : Type} (f : ℕ → α) (m k : ℕ) (d : α) (h : k < m) :
    ((List.range m).map f).getD k d = f k := by
  simp [List.getD_eq_getElem?_getD, List.getElem?_map, List.getElem?_range, h]

theorem foldr_max_le (xs : List ℕ) (m : ℕ) (h : ∀ x ∈ xs, x < m) :
    xs.foldr (fun x mm => max (x + 1) mm) 0 ≤ m := by
  induction xs with
  | nil => simp
  | cons y ys ih =>
    have hy := h y (by simp)
    have hys := ih (fun x hx => h x (by simp [hx]))
    simp only [List.foldr_cons]
    omega

theorem bincount_length (xs : List ℕ) (m : ℕ) (h : ∀ x ∈ xs, x < m) :
    (bincount xs m).length = m := by
  have := foldr_max_le xs m h
  simp [bincount]
  omega

theorem bincount_getD (xs : List ℕ) (m k : ℕ) (h : ∀ x ∈ xs, x < m) (hk : k < m) :
    (bincount xs m).getD k 0 = xs.count k := by
  unfold bincount
  exact getD_range_map _ _ k 0 (by have := foldr_max_le xs m h; omega)

theorem mul_add_lt_sq (n t p : ℕ) (ht : t < n) (hp : p < n) : n * t + p < n * n := by
  have h1 : n * (t + 1) = n * t + n := by ring
  have h2 : n * (t + 1) ≤ n * n := Nat.mul_le_mul_left n (by omega)
  omega

theorem bin_index_inj (n t p i j : ℕ) (hp : p < n) (hj : j < n)
    (h : n * t + p = n * i + j) : t = i ∧ p = j := by
  have hn : 0 < n := by omega
  have hmod : p = j := by
    have h1 : (n * t + p) % n = p := by simp [Nat.mul_add_mod, Nat.mod_eq_of_lt hp]
    have h2 : (n * i + j) % n = j := by simp [Nat.mul_add_mod, Nat.mod_eq_of_lt hj]
    rw [h] at h1; omega
  refine ⟨?_, hmod⟩
  have h3 : n * t = n * i := by omega
  exact Nat.eq_of_mul_eq_mul_left hn h3

/-- What a successful `fast_hist` computes, when every predicted value at a
kept position is in range: the matrix of pair counts over the zipped
(label, prediction) sequence. -/
theorem fast_hist_eq_counts (a b : List ℤ) (n : ℕ)
    (hb : ∀ q ∈ a.zip b, (0 ≤ q.1 ∧ q.1 < (n : ℤ)) → (0 ≤ q.2 ∧ q.2 < (n : ℤ))) :
    IoU.fast_hist a b n = some (specCountMatrix a b n) := by
  unfold IoU.fast_hist
  set kept := (a.zip b).filter (fun q => decide (0 ≤ q.1 ∧ q.1 < (n : ℤ))) with hkeptDef
  have hkept : ∀ q ∈ kept, (0 ≤ q.1 ∧ q.1 < (n : ℤ)) ∧ (0 ≤ q.2 ∧ q.2 < (n : ℤ)) := by
    intro q hq
    have h1 : 0 ≤ q.1 ∧ q.1 < (n : ℤ) := by
      have := List.of_mem_filter hq
      simpa using this
    exact ⟨h1, hb q (List.mem_of_mem_filter hq) h1⟩
  set bins := kept.map (fun q => (n : ℤ) * q.1 + q.2) with hbinsDef
  have hnonneg : bins.all (fun x => decide (0 ≤ x)) = true := by
    rw [List.all_eq_true]
    intro x hx
    rw [hbinsDef, List.mem_map] at hx
    obtain ⟨q, hq, rfl⟩ := hx
    obtain ⟨⟨h1, _⟩, ⟨h3, _⟩⟩ := hkept q hq
    simp only [decide_eq_true_eq]
    have := mul_nonneg (Int.natCast_nonneg n) h1
    omega
  rw [if_pos hnonneg]
  have hmapN : bins.map Int.toNat = kept.map (fun q => n * q.1.toNat + q.2.toNat) := by
    rw [hbinsDef, List.map_map]
    refine List.map_congr_left ?_
    intro q hq
    obtain ⟨⟨h1, _⟩, ⟨h3, _⟩⟩ := hkept q hq
    simp only [Function.comp_apply]
    lift q.1 to ℕ using h1 with t
    lift q.2 to ℕ using h3 with p
    norm_cast
  have hlt : ∀ x ∈ bins.map Int.toNat, x < n * n := by
    rw [hmapN]
    intro x hx
    rw [List.mem_map] at hx
    obtain ⟨q, hq, rfl⟩ := hx
    obtain ⟨⟨h1, h2⟩, ⟨h3, h4⟩⟩ := hkept q hq
    exact mul_add_lt_sq n _ _ (by omega) (by omega)
  unfold reshape
  rw [if_pos (bincount_length _ _ hlt)]
  congr 1
  unfold specCountMatrix
  refine List.map_congr_left ?_
  intro i hi
  rw [List.mem_range] at hi
  refine List.map_congr_left ?_
  intro j hj
  rw [List.mem_range] at hj
  rw [bincount_getD _ _ _ hlt (mul_add_lt_sq n i j hi hj)]
  -- count of the bin value equals the count of the pair (i, j)
  rw [hmapN]
  have hcount1 : (kept.map (fun q => n * q.1.toNat + q.2.toNat)).count (n * i + j) =
      kept.countP (fun q => n * q.1.toNat + q.2.toNat == n * i + j) := by
    rw [List.count_eq_countP, List.countP_map]
    rfl
  have hcount2 : kept.countP (fun q => n * q.1.toNat + q.2.toNat == n * i + j) =
      kept.countP (fun q => q == ((i : ℤ), (j : ℤ))) := by
    refine List.countP_congr ?_
    intro q hq
    obtain ⟨⟨h1, h2⟩, ⟨h3, h4⟩⟩ := hkept q hq
    simp only [beq_iff_eq]
    constructor
    · intro heq
      obtain ⟨hti, hpj⟩ := bin_index_inj n q.1.toNat q.2.toNat i j
        (by omega) hj heq
      have hq1 : q.1 = (i : ℤ) := by omega
      have hq2 : q.2 = (j : ℤ) := by omega
      exact Prod.ext hq1 hq2
    · intro heq
      rw [heq]
      simp
  have hcount3 : kept.countP (fun q => q == ((i : ℤ), (j : ℤ))) =
      (a.zip b).count ((i : ℤ), (j : ℤ)) := by
    rw [hkeptDef, ← List.count_eq_countP, List.count_filter]
    simp only [decide_eq_true_eq]
    constructor <;> [positivity; exact_mod_cast hi]
  rw [hcount1, hcount2, hcount3]

theorem getD_eq_default_of_le {α : Type} (l : List α) (k : ℕ) (d : α) (h : l.length ≤ k) :
    l.getD k d = d := by
  rw [List.getD_eq_getElem?_getD, List.getElem?_eq_none h]
  rfl

theorem getD_replicate' {α : Type} (x : α) (n k : ℕ) (d : α) :
    (List.replicate n x).getD k d = if k < n then x else d := by
  rcases lt_or_ge k n with h | h
  · rw [List.getD_eq_getElem?_getD, List.getElem?_replicate, if_pos h, if_pos h]
    rfl
  · rw [getD_eq_default_of_le _ _ _ (by simpa using h), if_neg (by omega)]

theorem getD_replicate_zero (n k : ℕ) : (List.replicate n (0 : ℕ)).getD k 0 = 0 := by
  rw [getD_replicate']
  split <;> rfl

theorem getD_zeroM (n k : ℕ) : (zeroM n).getD k [] = if k < n then List.replicate n 0 else [] :=
  getD_replicate' _ n k []

theorem diagE_zeroM (n c : ℕ) : diagE (zeroM n) c = 0 := by
  unfold diagE
  rw [getD_zeroM]
  split
  · exact getD_replicate_zero n c
  · rfl

theorem rowSum_zeroM (n c : ℕ) : rowSum (zeroM n) c = 0 := by
  unfold rowSum
  rw [getD_zeroM]
  split <;> simp

theorem colSum_zeroM (n c : ℕ) : colSum (zeroM n) c = 0 := by
  unfold colSum zeroM
  rw [List.map_replicate]
  simp [getD_replicate_zero]

theorem diagE_le_rowSum (M : Mat) (c : ℕ) : diagE M c ≤ rowSum M c := by
  unfold diagE rowSum
  set r := M.getD c [] with hr
  rcases lt_or_ge c r.length with h | h
  · have hmem : r.getD c 0 ∈ r := by
      rw [List.getD_eq_getElem?_getD, List.getElem?_eq_getElem h]
      exact List.getElem_mem h
    exact List.single_le_sum (fun y _ => Nat.zero_le y) _ hmem
  · rw [getD_eq_default_of_le _ _ _ (by simpa using h)]
    exact Nat.zero_le _

theorem diagE_le_colSum (M : Mat) (c : ℕ) : diagE M c ≤ colSum M c := by
  unfold diagE colSum
  rcases lt_or_ge c M.length with h | h
  · have hmem : (M.getD c []).getD c 0 ∈ M.map (fun r => r.getD c 0) := by
      rw [List.mem_map]
      refine ⟨M.getD c [], ?_, rfl⟩
      rw [List.getD_eq_getElem?_getD, List.getElem?_eq_getElem h]
      exact List.getElem_mem h
    exact List.single_le_sum (fun y _ => Nat.zero_le y) _ hmem
  · have hnil : M.getD c [] = ([] : List ℕ) := getD_eq_default_of_le M c [] (by omega)
    rw [hnil]
    exact Nat.zero_le _

theorem zipWith_add_self_zero (v : List ℕ) :
    List.zipWith (· + ·) (List.replicate v.length 0) v = v := by
  induction v with
  | nil => rfl
  | cons x xs ih => simp [List.replicate_succ, ih]

theorem matAdd_replicate_zero (m n : ℕ) (C : Mat) (hC : C.length = m)
    (hr : ∀ r ∈ C, r.length = n) :
    List.zipWith (List.zipWith (· + ·)) (List.replicate m (List.replicate n 0)) C = C := by
  induction C generalizing m with
  | nil => simp
  | cons r rs ih =>
    rcases m with _ | k
    · simp at hC
    · simp only [List.replicate_succ, List.zipWith_cons_cons]
      have h1 : List.zipWith (· + ·) (List.replicate n 0) r = r := by
        have hrow := hr r (by simp)
        rw [← hrow]
        exact zipWith_add_self_zero r
      rw [h1, ih k (by simpa using hC) (fun x hx => hr x (by simp [hx]))]

theorem matAdd_zeroM (n : ℕ) (C : Mat) (hC : C.length = n) (hr : ∀ r ∈ C, r.length = n) :
    matAdd (zeroM n) C = C :=
  matAdd_replicate_zero n n C hC hr

theorem zipWith_map_same {α β : Type} (f g : α → β) (h : β → β → β) (l : List α) :
    List.zipWith h (l.map f) (l.map g) = l.map (fun x => h (f x) (g x)) := by
  induction l with
  | nil => rfl
  | cons x xs ih => simp [List.zipWith_cons_cons, ih]

theorem zipWith_add_assoc_nat (l1 l2 l3 : List ℕ) :
    List.zipWith (· + ·) (List.zipWith (· + ·) l1 l2) l3 =
      List.zipWith (· + ·) l1 (List.zipWith (· + ·) l2 l3) := by
  induction l1 generalizing l2 l3 with
  | nil => simp
  | cons x xs ih =>
    cases l2 with
    | nil => simp
    | cons y ys =>
      cases l3 with
      | nil => simp
      | cons z zs => simp [List.zipWith_cons_cons, ih, Nat.add_assoc]

theorem matAdd_assoc (A B C : Mat) : matAdd (matAdd A B) C = matAdd A (matAdd B C) := by
  unfold matAdd
  induction A generalizing B C with
  | nil => simp
  | cons r rs ih =>
    cases B with
    | nil => simp
    | cons s ss =>
      cases C with
      | nil => simp
      | cons t ts => simp [List.zipWith_cons_cons, ih, zipWith_add_assoc_nat]

theorem specCountMatrix_length (a b : List ℤ) (n : ℕ) : (specCountMatrix a b n).length = n := by
  simp [specCountMatrix]

theorem specCountMatrix_rows (a b : List ℤ) (n : ℕ) :
    ∀ r ∈ specCountMatrix a b n, r.length = n := by
  intro r hr
  unfold specCountMatrix at hr
  rw [List.mem_map] at hr
  obtain ⟨i, _, rfl⟩ := hr
  simp

/-- Pair counts are additive over batch concatenation. -/
theorem specCountMatrix_append (a1 b1 a2 b2 : List ℤ) (n : ℕ)
    (hlen : a1.length = b1.length) :
    specCountMatrix (a1 ++ a2) (b1 ++ b2) n =
      matAdd (specCountMatrix a1 b1 n) (specCountMatrix a2 b2 n) := by
  unfold specCountMatrix matAdd
  rw [zipWith_map_same]
  refine List.map_congr_left ?_
  intro i _
  rw [zipWith_map_same]
  refine List.map_congr_left ?_
  intro j _
  rw [List.zip_append hlen, List.count_append]

theorem reduceT_of_dim_ne (t : Tens) (h : t.dim ≠ 4) : reduceT t = t := if_neg h

/-- `IoU.add` on inputs whose reduced flattened lengths agree and whose kept
predicted values are in range: the histogram grows by the pair-count matrix. -/
theorem add_eq_counts (s : IoU.State) (pred label : Tens)
    (hlen : (reduceT label).data.length = (reduceT pred).data.length)
    (hb : ∀ q ∈ (reduceT label).data.zip (reduceT pred).data,
      (0 ≤ q.1 ∧ q.1 < (s.num_classes : ℤ)) → (0 ≤ q.2 ∧ q.2 < (s.num_classes : ℤ))) :
    IoU.add s pred label =
      some ⟨s.num_classes,
        matAdd s.hist
          (specCountMatrix (reduceT label).data (reduceT pred).data s.num_classes)⟩ := by
  unfold IoU.add IoU.addHist
  rw [if_neg (by omega), fast_hist_eq_counts _ _ _ hb]
  rfl

theorem getD_row_length (M : Mat) (k i : ℕ) (h : i < M.length) (hr : ∀ r ∈ M, r.length = k) :
    (M.getD i []).length = k := by
  rw [List.getD_eq_getElem?_getD, List.getElem?_eq_getElem h]
  exact hr _ (List.getElem_mem h)

theorem zeroRC_length (ign : List ℕ) (M : Mat) : (zeroRC ign M).length = M.length := by
  simp [zeroRC]

theorem zeroRC_row (ign : List ℕ) (M : Mat) (i : ℕ) (hi : i < M.length) :
    (zeroRC ign M).getD i [] =
      (List.range ((M.getD i []).length)).map (fun j =>
        if i ∈ ign ∨ j ∈ ign then 0 else (M.getD i []).getD j 0) := by
  unfold zeroRC
  exact getD_range_map _ _ _ _ hi

theorem filterMap_id_replicate_none {α : Type} (n : ℕ) :
    (List.replicate n (none : Option α)).filterMap id = [] := by
  induction n with
  | zero => rfl
  | succ k ih => simp [List.replicate_succ, ih]

end Helpers

section Claims

/-- C1: for every `add(predicted, target)` call whose flattened (rank-reduced)
inputs have equal length, and whose predicted index at each kept position is
in `[0, N)` (the precondition under which the bincount reshape is defined,
see C10), the call succeeds and the confusion matrix grows by exactly the
pair-count matrix: entry `(t, p)` counts the positions with true index `t`
and predicted index `p`; positions with out-of-range true index match no
`(t, p)` with `t < N` and so contribute nothing.  `specCountMatrix` is, by
`fast_hist_eq_counts`, precisely `bincount(N*t+p, minlength=N*N)` reshaped
to `N×N`. -/
theorem C1_add_bincount_update (s : IoU.State) (pred label : Tens)
    (hlen : (reduceT label).data.length = (reduceT pred).data.length)
    (hb : ∀ q ∈ (reduceT label).data.zip (reduceT pred).data,
      (0 ≤ q.1 ∧ q.1 < (s.num_classes : ℤ)) → (0 ≤ q.2 ∧ q.2 < (s.num_classes : ℤ))) :
    IoU.fast_hist (reduceT label).data (reduceT pred).data s.num_classes =
      some (specCountMatrix (reduceT label).data (reduceT pred).data s.num_classes) ∧
    IoU.add s pred label =
      some ⟨s.num_classes,
        matAdd s.hist
          (specCountMatrix (reduceT label).data (reduceT pred).data s.num_classes)⟩ :=
  ⟨fast_hist_eq_counts _ _ _ hb, add_eq_counts s pred label hlen hb⟩

/-- C1 witness: a concrete in-range call, with the resulting matrix
evaluated. -/
theorem C1_witness :
    IoU.add ⟨2, [[1, 1], [1, 1]]⟩ ⟨[2, 2], [0, 1, 1, 0]⟩ ⟨[2, 2], [0, 1, 1, 1]⟩ =
      some ⟨2, [[2, 1], [2, 3]]⟩ := by
  have h := (C1_add_bincount_update ⟨2, [[1, 1], [1, 1]]⟩ ⟨[2, 2], [0, 1, 1, 0]⟩
    ⟨[2, 2], [0, 1, 1, 1]⟩ (by decide) (by decide)).2
  rw [h]
  decide

/-- C3: the spec's worked example is miscalculated.  With `num_classes=2`,
`add([[0,1],[1,0]], [[0,1],[1,1]])` (predicted, target) produces the matrix
`[[1,0],[1,2]]` — position (1,1) has predicted 0 against target 1 — not the
claimed `[[1,0],[0,3]]`. -/
theorem C3_counterexample :
    IoU.add (IoU.init 2) ⟨[2, 2], [0, 1, 1, 0]⟩ ⟨[2, 2], [0, 1, 1, 1]⟩ =
      some ⟨2, [[1, 0], [1, 2]]⟩ ∧
    (⟨2, [[1, 0], [1, 2]]⟩ : IoU.State) ≠ ⟨2, [[1, 0], [0, 3]]⟩ := by decide

/-- C3 amended: the call yields matrix `[[1,0],[1,2]]`, true_positive `[1,2]`,
false_positive `[1,0]`, false_negative `[0,1]`, and the effective `value()`
reports the per-class IoU vector `[2/3]` (class 0 is dropped by the `[1:]`
slice) with mean IoU `2/3`. -/
theorem C3_amended :
    IoU.add (IoU.init 2) ⟨[2, 2], [0, 1, 1, 0]⟩ ⟨[2, 2], [0, 1, 1, 1]⟩ =
      some ⟨2, [[1, 0], [1, 2]]⟩ ∧
    (List.range 2).map (diagE [[1, 0], [1, 2]]) = [1, 2] ∧
    (List.range 2).map (fun c => colSum [[1, 0], [1, 2]] c - diagE [[1, 0], [1, 2]] c) =
      [1, 0] ∧
    (List.range 2).map (fun c => rowSum [[1, 0], [1, 2]] c - diagE [[1, 0], [1, 2]] c) =
      [0, 1] ∧
    IoU.value [[1, 0], [1, 2]] = ([2/3], some (2/3)) := by
  refine ⟨by decide, by decide, by decide, by decide, ?_⟩
  norm_num [IoU.value, IoU.per_class_iu, IoU.meanQ, diagE, rowSum, colSum, List.range_succ]

/-- C5: the claim says `add` raises a shape error on batch-count mismatch or
rank outside {3, 4}.  The effective (second) `IoU.add` — the first variant's
asserts are shadowed — performs no shape validation at all: a rank-3 pair
with batch counts 1 vs 2 (equal element counts) is accumulated without any
error, mutating the matrix, and a rank-1 pair is accepted the same way. -/
theorem C5_no_shape_validation :
    ((⟨[1, 4, 2], List.replicate 8 0⟩ : Tens).shape.getD 0 0 ≠
      (⟨[2, 2, 2], List.replicate 8 0⟩ : Tens).shape.getD 0 0) ∧
    IoU.add (IoU.init 2) ⟨[1, 4, 2], List.replicate 8 0⟩ ⟨[2, 2, 2], List.replicate 8 0⟩ =
      some ⟨2, [[8, 0], [0, 0]]⟩ ∧
    (some (⟨2, [[8, 0], [0, 0]]⟩ : IoU.State) ≠ some (IoU.init 2)) ∧
    ((⟨[8], List.replicate 8 0⟩ : Tens).dim ∉ ([3, 4] : List ℕ)) ∧
    IoU.add (IoU.init 2) ⟨[8], List.replicate 8 0⟩ ⟨[8], List.replicate 8 0⟩ =
      some ⟨2, [[8, 0], [0, 0]]⟩ := by decide

/-- C6: when the flattened element counts of the rank-reduced inputs differ,
`add` returns with the state exactly unchanged (the diagnostic print has no
state effect and nothing is raised), and any subsequent `add` behaves as if
the mismatched call had never happened. -/
theorem C6_length_mismatch_noop (s : IoU.State) (pred label : Tens)
    (h : (reduceT label).data.length ≠ (reduceT pred).data.length) :
    IoU.add s pred label = some s ∧
    ∀ p2 l2, (IoU.add s pred label).bind (fun s2 => IoU.add s2 p2 l2) = IoU.add s p2 l2 := by
  have h1 : IoU.add s pred label = some s := by
    unfold IoU.add IoU.addHist
    rw [if_pos h]
    rfl
  refine ⟨h1, fun p2 l2 => ?_⟩
  rw [h1]
  rfl

/-- C6 witness: a concrete mismatched call (2 elements vs 1) is a no-op. -/
theorem C6_witness :
    IoU.add (IoU.init 2) ⟨[2], [0, 0]⟩ ⟨[1], [0]⟩ = some (IoU.init 2) :=
  (C6_length_mismatch_noop (IoU.init 2) ⟨[2], [0, 0]⟩ ⟨[1], [0]⟩ (by decide)).1

/-- C10: `fast_hist` restricts only the true-label array to `[0, n)`.  With
label 1 (in range) and predicted 2 (out of range) for `n = 2`, the bin value
`2*1+2 = 4` reaches `n² = 4`, the bincount vector has length 5 and cannot be
reshaped to 2×2, so the call fails (`none`) instead of recording a count —
and the failure propagates through `add`'s histogram update.  Conversely,
whenever every kept predicted value is in range, `fast_hist` is defined. -/
theorem C10_fast_hist_unchecked_pred :
    IoU.fast_hist [(1 : ℤ)] [(2 : ℤ)] 2 = none ∧
    IoU.addHist 2 (zeroM 2) [(2 : ℤ)] [(1 : ℤ)] = none ∧
    (∀ (a b : List ℤ) (n : ℕ),
      (∀ q ∈ a.zip b, (0 ≤ q.1 ∧ q.1 < (n : ℤ)) → (0 ≤ q.2 ∧ q.2 < (n : ℤ))) →
      IoU.fast_hist a b n = some (specCountMatrix a b n)) :=
  ⟨by decide, by decide, fun a b n hb => fast_hist_eq_counts a b n hb⟩

/-- C10 witness: the in-range case specialized to a concrete input. -/
theorem C10_witness :
    IoU.fast_hist [(0 : ℤ), 1] [(1 : ℤ), 1] 2 = some (specCountMatrix [0, 1] [1, 1] 2) :=
  C10_fast_hist_unchecked_pred.2.2 [0, 1] [1, 1] 2 (by decide)


/-- C2: the claim attributes the NaN-policy IoU formula to `value()` for
every class in `[0, N)`, but the effective (second) `IoU.value` does not
satisfy it: on the zero 2×2 matrix it returns the single-entry vector `[0]`
(class 0 dropped, `0/0` floored to `0/1 = 0`), while the claimed formula
(`iou_first`, the first variant's derivation) yields `[NaN, NaN]`. -/
theorem C2_counterexample :
    IoU.value (zeroM 2) = ([0], some 0) ∧
    iou_first (zeroM 2) = [none, none] ∧
    (IoU.value (zeroM 2)).1.map some ≠ iou_first (zeroM 2) := by
  norm_num [IoU.value, IoU.per_class_iu, IoU.meanQ, iou_first, diagE, rowSum, colSum, zeroM,
    List.range_succ, List.replicate_succ]

/-- C2 amended: the claimed derivation holds for the first (shadowed)
variant's `value()`: for every accumulated matrix `M` and class `c < N`,
`iou[c] = M[c][c] / (M[c][c] + (colSum-tp) + (rowSum-tp))`, a `0/0`
denominator gives NaN exactly when class `c` is absent from both predictions
and targets, and the mean is taken over the non-NaN entries only (NaN when
there are none).  The effective `value()` does not satisfy the claim (see
the counterexample). -/
theorem C2_amended_first_variant (M : Mat) (c : ℕ) (hc : c < M.length) :
    ((value_first none M).1.getD c (some 0) =
      if diagE M c + (colSum M c - diagE M c) + (rowSum M c - diagE M c) = 0 then none
      else some ((diagE M c : ℚ) /
        ((diagE M c + (colSum M c - diagE M c) + (rowSum M c - diagE M c) : ℕ) : ℚ))) ∧
    ((value_first none M).1.getD c (some 0) = none ↔ rowSum M c = 0 ∧ colSum M c = 0) ∧
    ((value_first none M).2 =
      if ((value_first none M).1.filterMap id).length = 0 then none
      else some (((value_first none M).1.filterMap id).sum /
        (((value_first none M).1.filterMap id).length : ℚ))) := by
  have hrow := diagE_le_rowSum M c
  have hcol := diagE_le_colSum M c
  have h1 : (value_first none M).1.getD c (some 0) =
      if diagE M c + (colSum M c - diagE M c) + (rowSum M c - diagE M c) = 0 then none
      else some ((diagE M c : ℚ) /
        ((diagE M c + (colSum M c - diagE M c) + (rowSum M c - diagE M c) : ℕ) : ℚ)) := by
    show (iou_first M).getD c (some 0) = _
    unfold iou_first
    rw [getD_range_map _ _ _ _ hc]
  refine ⟨h1, ?_, rfl⟩
  rw [h1]
  split
  · rename_i hden
    simp only [true_iff]
    omega
  · rename_i hden
    simp only [reduceCtorEq, false_iff]
    omega

/-- C2 witness: concrete instantiations of the amended theorem — a fully
observed class gives IoU 1, and the absence characterization at class 1. -/
theorem C2_witness :
    (value_first none [[1, 0], [0, 0]]).1.getD 0 (some 0) = some 1 ∧
    ((value_first none [[1, 0], [0, 0]]).1.getD 1 (some 0) = none ↔
      rowSum [[1, 0], [0, 0]] 1 = 0 ∧ colSum [[1, 0], [0, 0]] 1 = 0) := by
  constructor
  · have h := (C2_amended_first_variant [[1, 0], [0, 0]] 0 (by decide)).1
    rw [h]
    norm_num [diagE, rowSum, colSum]
  · exact (C2_amended_first_variant [[1, 0], [0, 0]] 1 (by decide)).2.1



/-- C4: a fresh accumulator's matrix is all-zero as claimed, but the
effective `value()` on it does not return an all-NaN vector and NaN mean:
for `N = 2` it returns `([0], some 0)` — a length-1 all-zero vector (class 0
dropped, `0/0` floored to `0`) and mean `0`, not NaN. -/
theorem C4_counterexample :
    (IoU.init 2).hist = zeroM 2 ∧
    IoU.value ((IoU.init 2).hist) = ([0], some 0) ∧
    (IoU.value ((IoU.init 2).hist)).2 ≠ none := by
  refine ⟨rfl, ?_, ?_⟩
  · norm_num [IoU.init, IoU.value, IoU.per_class_iu, IoU.meanQ, diagE, rowSum, colSum, zeroM,
      List.range_succ, List.replicate_succ]
  · norm_num [IoU.init, IoU.value, IoU.per_class_iu, IoU.meanQ, diagE, rowSum, colSum, zeroM,
      List.range_succ, List.replicate_succ]
    simp

/-- C4 amended: for every `N`, a freshly constructed or freshly reset
accumulator has the all-zero `N×N` matrix.  Over that matrix the *first*
(shadowed) variant's derivation is all-NaN with NaN mean, as the claim
says; the *effective* `value()` instead yields the length-`(N-1)` all-zero
IoU vector, with mean `0` whenever `N ≥ 2` (NaN mean only for `N ≤ 1`,
where the vector is empty). -/
theorem C4_amended (n : ℕ) (s : IoU.State) :
    (IoU.init n).hist = zeroM n ∧
    (IoU.reset s).hist = zeroM s.num_classes ∧
    (∀ c, c < n → (iou_first (zeroM n)).getD c (some 0) = none) ∧
    nanmean (iou_first (zeroM n)) = none ∧
    (IoU.value (zeroM n)).1 = List.replicate (n - 1) 0 ∧
    (2 ≤ n → (IoU.value (zeroM n)).2 = some 0) := by
  have hall : iou_first (zeroM n) = List.replicate n none := by
    unfold iou_first
    have hlen : (zeroM n).length = n := by simp [zeroM]
    rw [hlen]
    have hstep : ∀ c ∈ List.range n,
        (fun c =>
          if diagE (zeroM n) c + (colSum (zeroM n) c - diagE (zeroM n) c) +
              (rowSum (zeroM n) c - diagE (zeroM n) c) = 0 then (none : Option ℚ)
          else some ((diagE (zeroM n) c : ℚ) /
            ((diagE (zeroM n) c + (colSum (zeroM n) c - diagE (zeroM n) c) +
              (rowSum (zeroM n) c - diagE (zeroM n) c) : ℕ) : ℚ))) c =
          (fun _ => (none : Option ℚ)) c := by
      intro c _
      simp [diagE_zeroM, rowSum_zeroM, colSum_zeroM]
    rw [List.map_congr_left hstep, List.map_const', List.length_range]
  have hiu : IoU.per_class_iu (zeroM n) = List.replicate (n - 1) 0 := by
    unfold IoU.per_class_iu
    have hlen : (zeroM n).length = n := by simp [zeroM]
    rw [hlen]
    have hstep : ∀ c ∈ (List.range n).drop 1,
        (fun i => (diagE (zeroM n) i : ℚ) /
          ((max (rowSum (zeroM n) i + colSum (zeroM n) i - diagE (zeroM n) i) 1 : ℕ) : ℚ)) c =
          (fun _ => (0 : ℚ)) c := by
      intro c _
      simp [diagE_zeroM, rowSum_zeroM, colSum_zeroM]
    rw [List.map_congr_left hstep, List.map_const', List.length_drop, List.length_range]
  refine ⟨rfl, rfl, ?_, ?_, hiu, ?_⟩
  · intro c hcn
    rw [hall, getD_replicate']
    rw [if_pos hcn]
  · rw [hall]
    unfold nanmean
    rw [filterMap_id_replicate_none]
    rfl
  · intro hn
    show IoU.meanQ (IoU.per_class_iu (zeroM n)) = some 0
    rw [hiu]
    unfold IoU.meanQ
    rw [if_neg (by simp; omega)]
    simp [List.sum_replicate]

/-- C4 witness: the amended theorem instantiated at `N = 2`. -/
theorem C4_witness :
    (IoU.value (zeroM 2)).2 = some 0 ∧ (iou_first (zeroM 2)).getD 1 (some 0) = none :=
  ⟨(C4_amended 2 (IoU.init 2)).2.2.2.2.2 (by omega),
    (C4_amended 2 (IoU.init 2)).2.2.1 1 (by omega)⟩

/-- C9: the per-class-accuracy formula is as claimed, but `value()` does not
return the accuracy vector: it returns exactly the pair (IoU vector, mean
IoU), and at the matrix `[[1,0],[1,1]]` neither returned component equals
the accuracy vector `[1, 1/2]` (the accuracy mean is only printed). -/
theorem C9_counterexample :
    IoU.value [[1, 0], [1, 1]] = ([1/2], some (1/2)) ∧
    IoU.per_class_PA [[1, 0], [1, 1]] = [1, 1/2] ∧
    (IoU.value [[1, 0], [1, 1]]).1 ≠ IoU.per_class_PA [[1, 0], [1, 1]] := by
  norm_num [IoU.value, IoU.per_class_iu, IoU.per_class_PA, IoU.meanQ, diagE, rowSum, colSum,
    List.range_succ]

/-- C9 amended: for every accumulated matrix and class `c`,
`per_class_PA` gives `M[c][c] / max(rowSum(M)[c], 1)` — `0`, not NaN and not
an error, when class `c` never appears as ground truth — and `value()`
returns the pair (per-class IoU vector, mean IoU); the accuracy vector is
computed but not part of the return value. -/
theorem C9_amended (M : Mat) (c : ℕ) (hc : c < M.length) :
    (IoU.per_class_PA M).getD c 0 =
      (diagE M c : ℚ) / ((max (rowSum M c) 1 : ℕ) : ℚ) ∧
    (rowSum M c = 0 → (IoU.per_class_PA M).getD c 0 = 0) ∧
    IoU.value M = (IoU.per_class_iu M, IoU.meanQ (IoU.per_class_iu M)) := by
  have h1 : (IoU.per_class_PA M).getD c 0 =
      (diagE M c : ℚ) / ((max (rowSum M c) 1 : ℕ) : ℚ) := by
    unfold IoU.per_class_PA
    rw [getD_range_map _ _ _ _ hc]
  refine ⟨h1, ?_, rfl⟩
  intro hrow
  have hd : diagE M c = 0 := by
    have := diagE_le_rowSum M c
    omega
  rw [h1, hd, hrow]
  norm_num

/-- C9 witness: the amended theorem at a matrix whose class 0 never appears
as ground truth. -/
theorem C9_witness :
    (IoU.per_class_PA [[0, 0], [1, 1]]).getD 0 0 = 0 :=
  (C9_amended [[0, 0], [1, 1]] 0 (by decide)).2.1 (by decide)


/-- C8: for the first (shadowed) variant — the only one that accepts
`ignore_index`; the effective class's constructor has no such parameter —
with `ignore_index = 0` on a 3-class problem, `value()` zeroes row 0 and
column 0 before deriving statistics: `iou[0]` is NaN regardless of the
accumulated class-0 counts, and the whole result is invariant under
arbitrary changes to row 0 and column 0, i.e. class 0 contributes nothing
to any class's true-positive, false-positive or false-negative sums. -/
theorem C8_ignore_index_zeroes (M M' : Mat)
    (hM : M.length = 3) (hr : ∀ r ∈ M, r.length = 3)
    (hM' : M'.length = 3) (hr' : ∀ r ∈ M', r.length = 3)
    (hagree : ∀ i, i < 3 → ∀ j, j < 3 → i ≠ 0 → j ≠ 0 →
      (M.getD i []).getD j 0 = (M'.getD i []).getD j 0) :
    (value_first (some [0]) M).1.getD 0 (some 0) = none ∧
    value_first (some [0]) M = value_first (some [0]) M' := by
  have hz : zeroRC [0] M = zeroRC [0] M' := by
    unfold zeroRC
    rw [hM, hM']
    refine List.map_congr_left ?_
    intro i hi
    rw [List.mem_range] at hi
    rw [getD_row_length M 3 i (by omega) hr, getD_row_length M' 3 i (by omega) hr']
    refine List.map_congr_left ?_
    intro j hj
    rw [List.mem_range] at hj
    by_cases hij : i ∈ [0] ∨ j ∈ [0]
    · rw [if_pos hij, if_pos hij]
    · rw [if_neg hij, if_neg hij]
      push_neg at hij
      exact hagree i hi j hj (by simpa using hij.1) (by simpa using hij.2)
  have hZlen : (zeroRC [0] M).length = 3 := by rw [zeroRC_length, hM]
  have hrow0 : (zeroRC [0] M).getD 0 [] =
      (List.range 3).map (fun j =>
        if 0 ∈ [0] ∨ j ∈ [0] then 0 else (M.getD 0 []).getD j 0) := by
    rw [zeroRC_row _ _ _ (by omega), getD_row_length M 3 0 (by omega) hr]
  have hd0 : diagE (zeroRC [0] M) 0 = 0 := by
    unfold diagE
    rw [hrow0, getD_range_map _ _ _ _ (by omega)]
    simp
  have hrs0 : rowSum (zeroRC [0] M) 0 = 0 := by
    unfold rowSum
    rw [hrow0]
    refine List.sum_eq_zero ?_
    intro x hx
    rw [List.mem_map] at hx
    obtain ⟨j, _, rfl⟩ := hx
    simp
  have hcs0 : colSum (zeroRC [0] M) 0 = 0 := by
    unfold colSum
    refine List.sum_eq_zero ?_
    intro x hx
    rw [List.mem_map] at hx
    obtain ⟨r, hrmem, rfl⟩ := hx
    unfold zeroRC at hrmem
    rw [List.mem_map] at hrmem
    obtain ⟨i, _, rfl⟩ := hrmem
    rcases Nat.eq_zero_or_pos ((M.getD i []).length) with hlen0 | hlenpos
    · rw [hlen0]
      rfl
    · rw [getD_range_map _ _ _ _ hlenpos]
      simp
  have hc1 : (value_first (some [0]) M).1.getD 0 (some 0) = none := by
    show (iou_first (zeroRC [0] M)).getD 0 (some 0) = none
    unfold iou_first
    rw [getD_range_map _ _ _ _ (by omega)]
    rw [hd0, hrs0, hcs0]
    simp
  refine ⟨hc1, ?_⟩
  show (iou_first (zeroRC [0] M), nanmean (iou_first (zeroRC [0] M))) =
    (iou_first (zeroRC [0] M'), nanmean (iou_first (zeroRC [0] M')))
  rw [hz]

/-- C8 witness: a concrete 3×3 matrix with nonzero class-0 row/column, and a
second matrix differing only on row 0 and column 0, give identical results
with `iou[0]` NaN. -/
theorem C8_witness :
    (value_first (some [0]) [[5, 7, 0], [2, 1, 0], [0, 3, 4]]).1.getD 0 (some 0) = none ∧
    value_first (some [0]) [[5, 7, 0], [2, 1, 0], [0, 3, 4]] =
      value_first (some [0]) [[9, 9, 9], [6, 1, 0], [5, 3, 4]] :=
  C8_ignore_index_zeroes [[5, 7, 0], [2, 1, 0], [0, 3, 4]] [[9, 9, 9], [6, 1, 0], [5, 3, 4]]
    (by decide) (by decide) (by decide) (by decide) (by decide)


/-- C7: accumulation is additive and mergeable.  For rank-3 dense label
batches with in-range predictions, `add(a1,b1); add(a2,b2)` equals a single
`add` of the batch-concatenated inputs; and the histograms of two fresh
accumulators fed the two batches sum (elementwise) to the histogram of one
fresh accumulator fed everything, so every statistic derived from the
summed matrix — in particular `value()` — agrees. -/
theorem C7_additive_mergeable (s : IoU.State) (p1 l1 p2 l2 : Tens)
    (hd1 : p1.dim = 3) (hd2 : l1.dim = 3) (hd3 : p2.dim = 3) (hd4 : l2.dim = 3)
    (hl1 : l1.data.length = p1.data.length) (hl2 : l2.data.length = p2.data.length)
    (hr1 : ∀ x ∈ p1.data, 0 ≤ x ∧ x < (s.num_classes : ℤ))
    (hr2 : ∀ x ∈ p2.data, 0 ≤ x ∧ x < (s.num_classes : ℤ)) :
    ((IoU.add s p1 l1).bind (fun s1 => IoU.add s1 p2 l2) =
      IoU.add s (concat3 p1 p2) (concat3 l1 l2)) ∧
    (∀ s1 s2 s12,
      IoU.add (IoU.init s.num_classes) p1 l1 = some s1 →
      IoU.add (IoU.init s.num_classes) p2 l2 = some s2 →
      IoU.add (IoU.init s.num_classes) (concat3 p1 p2) (concat3 l1 l2) = some s12 →
      matAdd s1.hist s2.hist = s12.hist ∧
      IoU.value (matAdd s1.hist s2.hist) = IoU.value s12.hist) := by
  have e1 : reduceT p1 = p1 := reduceT_of_dim_ne p1 (by omega)
  have e2 : reduceT l1 = l1 := reduceT_of_dim_ne l1 (by omega)
  have e3 : reduceT p2 = p2 := reduceT_of_dim_ne p2 (by omega)
  have e4 : reduceT l2 = l2 := reduceT_of_dim_ne l2 (by omega)
  have ep : reduceT (concat3 p1 p2) = concat3 p1 p2 :=
    reduceT_of_dim_ne _ (by show ([_, _, _] : List ℕ).length ≠ 4; simp)
  have el : reduceT (concat3 l1 l2) = concat3 l1 l2 :=
    reduceT_of_dim_ne _ (by show ([_, _, _] : List ℕ).length ≠ 4; simp)
  have hb1 : ∀ q ∈ l1.data.zip p1.data,
      (0 ≤ q.1 ∧ q.1 < (s.num_classes : ℤ)) → (0 ≤ q.2 ∧ q.2 < (s.num_classes : ℤ)) :=
    fun q hq _ => hr1 q.2 (List.of_mem_zip hq).2
  have hb2 : ∀ q ∈ l2.data.zip p2.data,
      (0 ≤ q.1 ∧ q.1 < (s.num_classes : ℤ)) → (0 ≤ q.2 ∧ q.2 < (s.num_classes : ℤ)) :=
    fun q hq _ => hr2 q.2 (List.of_mem_zip hq).2
  have hb12 : ∀ q ∈ (l1.data ++ l2.data).zip (p1.data ++ p2.data),
      (0 ≤ q.1 ∧ q.1 < (s.num_classes : ℤ)) → (0 ≤ q.2 ∧ q.2 < (s.num_classes : ℤ)) := by
    intro q hq _
    have hmem := (List.of_mem_zip hq).2
    rw [List.mem_append] at hmem
    rcases hmem with h | h
    · exact hr1 q.2 h
    · exact hr2 q.2 h
  have happ : specCountMatrix (l1.data ++ l2.data) (p1.data ++ p2.data) s.num_classes =
      matAdd (specCountMatrix l1.data p1.data s.num_classes)
        (specCountMatrix l2.data p2.data s.num_classes) :=
    specCountMatrix_append _ _ _ _ _ hl1
  -- `add` on an arbitrary state, for each of the three batches
  have A1 : ∀ t : IoU.State, t.num_classes = s.num_classes →
      IoU.add t p1 l1 =
        some ⟨s.num_classes, matAdd t.hist (specCountMatrix l1.data p1.data s.num_classes)⟩ := by
    intro t ht
    have h := add_eq_counts t p1 l1 (by rw [e1, e2]; exact hl1)
      (by rw [e1, e2, ht]; exact hb1)
    rw [e1, e2, ht] at h
    exact h
  have A2 : ∀ t : IoU.State, t.num_classes = s.num_classes →
      IoU.add t p2 l2 =
        some ⟨s.num_classes, matAdd t.hist (specCountMatrix l2.data p2.data s.num_classes)⟩ := by
    intro t ht
    have h := add_eq_counts t p2 l2 (by rw [e3, e4]; exact hl2)
      (by rw [e3, e4, ht]; exact hb2)
    rw [e3, e4, ht] at h
    exact h
  have A12 : ∀ t : IoU.State, t.num_classes = s.num_classes →
      IoU.add t (concat3 p1 p2) (concat3 l1 l2) =
        some ⟨s.num_classes, matAdd t.hist
          (matAdd (specCountMatrix l1.data p1.data s.num_classes)
            (specCountMatrix l2.data p2.data s.num_classes))⟩ := by
    intro t ht
    have h := add_eq_counts t (concat3 p1 p2) (concat3 l1 l2)
      (by rw [ep, el]; show (l1.data ++ l2.data).length = (p1.data ++ p2.data).length;
          simp [hl1, hl2])
      (by rw [ep, el, ht]; exact hb12)
    rw [ep, el, ht] at h
    show IoU.add t (concat3 p1 p2) (concat3 l1 l2) = _
    rw [h, ← happ]
    rfl
  constructor
  · rw [A1 s rfl]
    show IoU.add ⟨s.num_classes, _⟩ p2 l2 = _
    rw [A2 ⟨s.num_classes, matAdd s.hist (specCountMatrix l1.data p1.data s.num_classes)⟩ rfl,
      A12 s rfl, matAdd_assoc]
  · intro s1 s2 s12 f1 f2 f12
    rw [A1 (IoU.init s.num_classes) rfl] at f1
    rw [A2 (IoU.init s.num_classes) rfl] at f2
    rw [A12 (IoU.init s.num_classes) rfl] at f12
    have g1 : s1 = ⟨s.num_classes,
        matAdd (zeroM s.num_classes) (specCountMatrix l1.data p1.data s.num_classes)⟩ := by
      exact (Option.some.injEq _ _).mp f1.symm
    have g2 : s2 = ⟨s.num_classes,
        matAdd (zeroM s.num_classes) (specCountMatrix l2.data p2.data s.num_classes)⟩ := by
      exact (Option.some.injEq _ _).mp f2.symm
    have g12 : s12 = ⟨s.num_classes,
        matAdd (zeroM s.num_classes)
          (matAdd (specCountMatrix l1.data p1.data s.num_classes)
            (specCountMatrix l2.data p2.data s.num_classes))⟩ := by
      exact (Option.some.injEq _ _).mp f12.symm
    have z1 : matAdd (zeroM s.num_classes) (specCountMatrix l1.data p1.data s.num_classes) =
        specCountMatrix l1.data p1.data s.num_classes :=
      matAdd_zeroM _ _ (specCountMatrix_length _ _ _) (specCountMatrix_rows _ _ _)
    have z2 : matAdd (zeroM s.num_classes) (specCountMatrix l2.data p2.data s.num_classes) =
        specCountMatrix l2.data p2.data s.num_classes :=
      matAdd_zeroM _ _ (specCountMatrix_length _ _ _) (specCountMatrix_rows _ _ _)
    have z12 : matAdd (zeroM s.num_classes)
        (matAdd (specCountMatrix l1.data p1.data s.num_classes)
          (specCountMatrix l2.data p2.data s.num_classes)) =
        matAdd (specCountMatrix l1.data p1.data s.num_classes)
          (specCountMatrix l2.data p2.data s.num_classes) := by
      rw [← happ]
      exact matAdd_zeroM _ _ (specCountMatrix_length _ _ _) (specCountMatrix_rows _ _ _)
    have hh : matAdd s1.hist s2.hist = s12.hist := by
      rw [g1, g2, g12]
      show matAdd (matAdd _ _) (matAdd _ _) = matAdd _ _
      rw [z1, z2, z12]
    exact ⟨hh, by rw [hh]⟩

/-- C7 witness: two concrete one-image rank-3 batches; chaining the two
`add` calls equals one `add` of the concatenation. -/
theorem C7_witness :
    ((IoU.add (IoU.init 2) ⟨[1, 2, 2], [0, 1, 1, 0]⟩ ⟨[1, 2, 2], [0, 1, 1, 1]⟩).bind
      (fun s1 => IoU.add s1 ⟨[1, 2, 2], [1, 0, 0, 1]⟩ ⟨[1, 2, 2], [1, 1, 0, 1]⟩)) =
      IoU.add (IoU.init 2) (concat3 ⟨[1, 2, 2], [0, 1, 1, 0]⟩ ⟨[1, 2, 2], [1, 0, 0, 1]⟩)
        (concat3 ⟨[1, 2, 2], [0, 1, 1, 1]⟩ ⟨[1, 2, 2], [1, 1, 0, 1]⟩) :=
  (C7_additive_mergeable (IoU.init 2) ⟨[1, 2, 2], [0, 1, 1, 0]⟩ ⟨[1, 2, 2], [0, 1, 1, 1]⟩
    ⟨[1, 2, 2], [1, 0, 0, 1]⟩ ⟨[1, 2, 2], [1, 1, 0, 1]⟩ rfl rfl rfl rfl
    (by decide) (by decide) (by decide) (by decide)).1

end Claims
